import Mathlib

/-!
Shallow embedding of `src/inactive-regions.ts` (vscode-clangd inactive-regions
feature): decoding of LSP semantic-token streams, delta patching, extraction of
inactive ranges and remapping of the inactive token type, together with the
per-document cache used for delta requests.

Conventions of the embedding:
* A `Uint32Array` is modelled as a `List Nat`.  Out-of-bounds reads give
  JavaScript `undefined`; where the source compares a read against a
  `number|undefined` value we model the read as `List.get?` (an `Option Nat`),
  since JavaScript `==` on `number|undefined` operands agrees with equality of
  the corresponding `Option Nat` values.  Out-of-bounds writes on a typed array
  are silently dropped, which coincides with `List.set` being the identity out
  of bounds.  A value read out of bounds and stored into a `Uint32Array` is
  coerced by `ToUint32 (undefined) = 0`.
* JavaScript `NaN`/`undefined` arithmetic results inside a `vscode.Position`
  are modelled by `Option Nat` (`none` = not-a-number); comparisons on them are
  false, as in JavaScript.
* Numbers that the source manipulates with possibly negative intermediate
  values (`destLastStart`, `copyCount`, `deltaLength`) are modelled as `Int`.
-/

set_option linter.unusedVariables false

/-- Result of a JavaScript `<` on two `number|undefined` values (`none` stands
for `undefined`/`NaN`, whose comparisons are always false). -/
def jsLtNum : Option Nat → Option Nat → Bool
  | some x, some y => x < y
  | _, _ => false

/-- Result of a JavaScript `===` on two `number|undefined` values, with `none`
standing for `NaN` (`NaN === NaN` is false). -/
def jsEqNum : Option Nat → Option Nat → Bool
  | some x, some y => x == y
  | _, _ => false

/-- Result of a JavaScript `<=` on two `number|undefined` values. -/
def jsLeNum : Option Nat → Option Nat → Bool
  | some x, some y => x ≤ y
  | _, _ => false

/-- A `vscode.Range`; coordinates are `Option Nat` because a truncated final
record can produce `NaN`/`undefined` coordinates. -/
structure JsRange where
  startLine : Option Nat
  startCharacter : Option Nat
  endLine : Option Nat
  endCharacter : Option Nat
deriving DecidableEq, Repr

/-- The `vscode.Range` constructor: if `start` is not before-or-equal `end`
(`isBeforeOrEqual`), the two positions are swapped. -/
def mkRange (sl sc el ec : Option Nat) : JsRange :=
  if jsLtNum sl el || (jsEqNum sl el && jsLeNum sc ec) then ⟨sl, sc, el, ec⟩
  else ⟨el, ec, sl, sc⟩

/-- A `vscode.SemanticTokens` value (`resultId?: string`, `data: Uint32Array`). -/
structure SemanticTokens where
  resultId : Option String
  data : List Nat
deriving DecidableEq, Repr

/-- One `vscode.SemanticTokensEdit` (`start`, `deleteCount`, `data?`). -/
structure SemanticTokensEdit where
  start : Nat
  deleteCount : Nat
  data : Option (List Nat)
deriving DecidableEq, Repr

/-- A `vscode.SemanticTokensEdits` value (`resultId?`, `edits`). -/
structure SemanticTokensEdits where
  resultId : Option String
  edits : List SemanticTokensEdit
deriving DecidableEq, Repr

/-- The `while (tokenIndex < tokenCount)` loop of `computeInactiveRanges`,
one recursive step per token.  `tokenCount = data.length / 5` is a fractional
JavaScript number, so the loop also runs for a truncated final record
(`data.length % 5 ≠ 0`); the missing fields then read as `undefined`.  The
patterns below enumerate: a record with all five fields present, and final
records truncated to 4, 3, 2 or 1 fields.  A truncated record's `typeCode`
read (`data[offset+3]`) is `undefined` when fewer than 4 fields remain, and
`undefined == sentinel` holds exactly when the sentinel itself is `undefined`. -/
def computeLoop (sentinel : Option Nat) (lastLine lastChar : Nat) : List Nat → List JsRange
  | d0 :: d1 :: len :: ty :: _m :: rest =>
      let line := lastLine + d0
      let col := if d0 = 0 then lastChar + d1 else d1
      let rs := computeLoop sentinel line col rest
      if (some ty : Option Nat) = sentinel then
        mkRange (some line) (some col) (some line) (some (col + len)) :: rs
      else rs
  | [d0, d1, len, ty] =>
      let line := lastLine + d0
      let col := if d0 = 0 then lastChar + d1 else d1
      if (some ty : Option Nat) = sentinel then
        [mkRange (some line) (some col) (some line) (some (col + len))]
      else []
  | [d0, d1, len] =>
      let line := lastLine + d0
      let col := if d0 = 0 then lastChar + d1 else d1
      if (none : Option Nat) = sentinel then
        [mkRange (some line) (some col) (some line) (some (col + len))]
      else []
  | [d0, d1] =>
      let line := lastLine + d0
      let col := if d0 = 0 then lastChar + d1 else d1
      if (none : Option Nat) = sentinel then
        [mkRange (some line) (some col) (some line) none]
      else []
  | [d0] =>
      let line := lastLine + d0
      if (none : Option Nat) = sentinel then
        [mkRange (some line) none (some line) none]
      else []
  | [] => []

/-- The function `computeInactiveRanges` of the source, on the raw data array;
`sentinel` is the module-level `inactiveCodeTokenTypeIndex`. -/
def computeInactiveRangesData (sentinel : Option Nat) (data : List Nat) : List JsRange :=
  computeLoop sentinel 0 0 data

/-- The function `computeInactiveRanges` of the source, on a `SemanticTokens`. -/
def computeInactiveRanges (sentinel : Option Nat) (tokens : SemanticTokens) : List JsRange :=
  computeInactiveRangesData sentinel tokens.data

/-- The `for (tokenIndex …)` loop of `replaceInactiveRanges`: `n` remaining
iterations, `i` the current token index.  An out-of-bounds read of
`data[offset+3]` gives `undefined`, which `==`-matches only an `undefined`
sentinel, and the corresponding out-of-bounds store is dropped (as on a
`Uint32Array`), which is `List.set`'s behaviour out of bounds. -/
def replaceLoop (sentinel : Option Nat) (replaceIdx : Nat) : Nat → Nat → List Nat → List Nat
  | 0, _, data => data
  | n + 1, i, data =>
      let off := 5 * i
      let d := if data[off + 3]? = sentinel then data.set (off + 3) replaceIdx else data
      replaceLoop sentinel replaceIdx n (i + 1) d

/-- The function `replaceInactiveRanges` of the source, on the raw data array
(the source first value-copies `tokens.data`, then rewrites type codes in the
copy).  The loop bound `tokenIndex < data.length / 5` runs
`⌈data.length / 5⌉` iterations since `tokenCount` is fractional. -/
def replaceInactiveRangesData (sentinel : Option Nat) (replaceIdx : Nat) (data : List Nat) : List Nat :=
  replaceLoop sentinel replaceIdx ((data.length + 4) / 5) 0 data

/-- The function `replaceInactiveRanges` of the source: returns
`{resultId: tokens.resultId, data: remapped copy}`. -/
def replaceInactiveRanges (sentinel : Option Nat) (replaceIdx : Nat) (tokens : SemanticTokens) : SemanticTokens :=
  ⟨tokens.resultId, replaceInactiveRangesData sentinel replaceIdx tokens.data⟩

/-- An indexed read `a[i]` of a `Uint32Array` whose result is stored back into
a `Uint32Array`: an out-of-bounds (or negative-index) read gives `undefined`,
and `ToUint32 (undefined) = 0` on store. -/
def u32Get (a : List Nat) (i : Int) : Nat :=
  if 0 ≤ i then a.getD i.toNat 0 else 0

/-- An indexed write `a[i] = v` on a `Uint32Array`: out-of-bounds and
negative-index writes are silently dropped (`List.set` is the identity out of
bounds). -/
def u32Set (a : List Nat) (i : Int) (v : Nat) : List Nat :=
  if 0 ≤ i then a.set i.toNat v else a

/-- The helper `copy(src, srcOffset, dest, destOffset, length)` of the source:
`for i in [0, length): dest[destOffset+i] = src[srcOffset+i]`.  The source and
destination arrays are always distinct objects at the call sites, so the
sequential loop equals this recursion. -/
def copyArr (src : List Nat) : Int → List Nat → Int → Nat → List Nat
  | _, dest, _, 0 => dest
  | srcOffset, dest, destOffset, n + 1 =>
      copyArr src (srcOffset + 1) (u32Set dest destOffset (u32Get src srcOffset)) (destOffset + 1) n

/-- The `edit.data ? edit.data.length : 0` / `if (edit.data)` convention: an
absent array contributes the empty list (note an empty array is truthy in
JavaScript, and copying an empty array is a no-op, so `getD []` is faithful
for both uses). -/
def editData (e : SemanticTokensEdit) : List Nat :=
  e.data.getD []

/-- The `deltaLength` accumulation loop of `applyDelta`. -/
def sumDelta (edits : List SemanticTokensEdit) : Int :=
  edits.foldl (fun acc e => acc + ((editData e).length : Int) - (e.deleteCount : Int)) 0

/-- The mutable state of `applyDelta`'s main loop. -/
structure DeltaState where
  dest : List Nat
  srcLastStart : Int
  destLastStart : Int
deriving Repr

/-- First statement of `applyDelta`'s loop body: `if (copyCount) { copy(…);
destLastStart -= copyCount; }` — copy the untouched gap between the edit's end
and the previously processed position (`if (copyCount)` is JavaScript
truthiness, i.e. `copyCount ≠ 0`). -/
def applyDeltaStepGap (src : List Nat) (edit : SemanticTokensEdit) (st : DeltaState) : DeltaState :=
  let copyCount : Int := st.srcLastStart - ((edit.start : Int) + (edit.deleteCount : Int))
  if copyCount ≠ 0 then
    { dest := copyArr src (st.srcLastStart - copyCount) st.dest (st.destLastStart - copyCount) copyCount.toNat,
      srcLastStart := st.srcLastStart,
      destLastStart := st.destLastStart - copyCount }
  else st

/-- Second statement of `applyDelta`'s loop body: `if (edit.data) { copy(…);
destLastStart -= edit.data.length; }` — splice in the edit's inserted data. -/
def applyDeltaStepIns (edit : SemanticTokensEdit) (st : DeltaState) : DeltaState :=
  match edit.data with
  | some d =>
      { dest := copyArr d 0 st.dest (st.destLastStart - (d.length : Int)) d.length,
        srcLastStart := st.srcLastStart,
        destLastStart := st.destLastStart - (d.length : Int) }
  | none => st

/-- One iteration of `applyDelta`'s edit loop (the loop walks the edit list
backwards): gap copy, insertion, then `srcLastStart = edit.start`. -/
def applyDeltaStep (src : List Nat) (edit : SemanticTokensEdit) (st : DeltaState) : DeltaState :=
  let st2 := applyDeltaStepIns edit (applyDeltaStepGap src edit st)
  { st2 with srcLastStart := (edit.start : Int) }

/-- The function `applyDelta` of the source, on the raw data array.  The
source allocates `new Uint32Array(srcData.length + deltaLength)` (which throws
a `RangeError` when that number is negative — `Int.toNat` clamps that case,
which no theorem below relies on), walks `delta.edits` backwards copying the
suffix after each edit and then the edit's insertion, and finally copies the
untouched prefix. -/
def applyDeltaData (prev : List Nat) (edits : List SemanticTokensEdit) : List Nat :=
  let deltaLength : Int := sumDelta edits
  let destLen : Nat := ((prev.length : Int) + deltaLength).toNat
  let st0 : DeltaState := ⟨List.replicate destLen 0, (prev.length : Int), (destLen : Int)⟩
  let st := edits.foldr (applyDeltaStep prev) st0
  if 0 < st.srcLastStart then copyArr prev 0 st.dest 0 st.srcLastStart.toNat else st.dest

/-- The function `applyDelta` of the source: the result carries the delta's
own `resultId`. -/
def applyDelta (prev : SemanticTokens) (delta : SemanticTokensEdits) : SemanticTokens :=
  ⟨delta.resultId, applyDeltaData prev.data delta.edits⟩

/-- The per-document entries of the module-level `lastTokens` and
`lastInactiveRanges` weak maps, for one document. -/
structure DocState where
  lastTokens : Option SemanticTokens
  lastInactiveRanges : Option (List JsRange)
deriving DecidableEq, Repr

/-- The function `provideDocumentSemanticTokens` of the source: caches the
incoming (un-remapped) tokens, computes and caches the inactive ranges, and
returns the remapped stream.  The decoration side effect on visible editors is
outside the model. -/
def provideDocumentSemanticTokens (sentinel : Option Nat) (replaceIdx : Nat)
    (st : DocState) (tokens : SemanticTokens) : DocState × SemanticTokens :=
  (⟨some tokens, some (computeInactiveRanges sentinel tokens)⟩,
   replaceInactiveRanges sentinel replaceIdx tokens)

/-- The function `provideDocumentSemanticTokensEdits` of the source.  The
`tokens` argument is `SemanticTokens ⊕ SemanticTokensEdits`; the source
distinguishes the two by `isSemanticTokens` (presence of `.data`).  On a delta
whose base `resultId` does not match the cached tokens (or with no cached
tokens), the delta is returned unchanged and the state untouched. -/
def provideDocumentSemanticTokensEdits (sentinel : Option Nat) (replaceIdx : Nat)
    (st : DocState) (previousResultId : String)
    (tokens : SemanticTokens ⊕ SemanticTokensEdits) :
    DocState × (SemanticTokens ⊕ SemanticTokensEdits) :=
  match tokens with
  | Sum.inl full =>
      let r := provideDocumentSemanticTokens sentinel replaceIdx st full
      (r.1, Sum.inl r.2)
  | Sum.inr delta =>
      match st.lastTokens with
      | none => (st, Sum.inr delta)
      | some prev =>
          if prev.resultId = some previousResultId then
            let r := provideDocumentSemanticTokens sentinel replaceIdx st (applyDelta prev delta)
            (r.1, Sum.inl r.2)
          else (st, Sum.inr delta)

/-- The method `InactiveRegionsFeature.initialize` of the source, acting on
the module state `(inactiveCodeTokenTypeIndex, inactiveCodeTokenTypeReplaceIndex)`
(both initially undefined).  `legend = none` models an absent
`semanticTokensProvider` capability, in which case nothing is recorded.  The
scan `for (i = 0; i < tokenTypes.length; i++) if (tokenTypes[i] === 'comment')
index = i` keeps overwriting, hence records the last occurrence. -/
def initLegend (st : Option Nat × Option Nat) (legend : Option (List String)) :
    Option Nat × Option Nat :=
  match legend with
  | none => st
  | some tokenTypes =>
      ((List.range tokenTypes.length).foldl
        (fun acc i => if tokenTypes.get? i = some "comment" then some i else acc) st.1,
       some tokenTypes.length)

/-! Specification-side definitions, used to state the claims the source is
compared against (decoded records, splice semantics, extraction). -/

/-- One wire-format record of the flat stream (five unsigned integers). -/
structure TokenRecord where
  deltaLine : Nat
  deltaStartColumn : Nat
  length : Nat
  typeCode : Nat
  modifierBits : Nat
deriving DecidableEq, Repr

/-- Flattening a record list into the 5-integers-per-record wire stream. -/
def flattenTokens : List TokenRecord → List Nat
  | [] => []
  | t :: ts => t.deltaLine :: t.deltaStartColumn :: t.length :: t.typeCode :: t.modifierBits :: flattenTokens ts

/-- Chunking a wire stream back into complete records (a trailing truncated
record is dropped). -/
def chunkTokens : List Nat → List TokenRecord
  | d0 :: d1 :: l :: t :: m :: rest => ⟨d0, d1, l, t, m⟩ :: chunkTokens rest
  | _ => []

/-- The field of a record at offset `r ∈ [0, 5)` within its 5-integer group. -/
def tokenField (t : TokenRecord) : Nat → Nat
  | 0 => t.deltaLine
  | 1 => t.deltaStartColumn
  | 2 => t.length
  | 3 => t.typeCode
  | _ => t.modifierBits

/-- An absolute-position record as described by the spec's data model. -/
structure AbsRecord where
  startLine : Nat
  startColumn : Nat
  length : Nat
  typeCode : Nat
  modifierBits : Nat
deriving DecidableEq, Repr

/-- Modelled from the spec: the decode of `TokenRecordCodec` — absolute
positions from relative deltas, decoding state starting at `(0, 0)`:
`startLine = lastLine + deltaLine`, and the column baseline resets on a line
change. -/
def decodeAbsolute (lastLine lastChar : Nat) : List TokenRecord → List AbsRecord
  | [] => []
  | t :: ts =>
      let line := lastLine + t.deltaLine
      let col := if t.deltaLine = 0 then lastChar + t.deltaStartColumn else t.deltaStartColumn
      ⟨line, col, t.length, t.typeCode, t.modifierBits⟩ :: decodeAbsolute line col ts

/-- Modelled from the spec: `InactiveRangeExtractor.extract` — one single-line
range per decoded record whose `typeCode` equals the sentinel, in input
order. -/
def extractInactiveSpec (s : Nat) (recs : List AbsRecord) : List JsRange :=
  (recs.filter (fun r => r.typeCode = s)).map
    (fun r => ⟨some r.startLine, some r.startColumn, some r.startLine, some (r.startColumn + r.length)⟩)

/-- Lexicographic non-decreasing order on decoded record positions. -/
def recPosLe (a b : AbsRecord) : Prop :=
  a.startLine < b.startLine ∨ (a.startLine = b.startLine ∧ a.startColumn ≤ b.startColumn)

/-- Lexicographic non-decreasing order on emitted range start positions (all
coordinates defined). -/
def rangeLe (a b : JsRange) : Prop :=
  ∃ la ca lb cb, a.startLine = some la ∧ a.startCharacter = some ca ∧
    b.startLine = some lb ∧ b.startCharacter = some cb ∧
    (la < lb ∨ (la = lb ∧ ca ≤ cb))

/-- Modelled from the spec: one splice edit — remove `deleteCount` integers at
`start` and splice `insertedData` in their place. -/
def spliceOneSpec (buf : List Nat) (e : SemanticTokensEdit) : List Nat :=
  buf.take e.start ++ editData e ++ buf.drop (e.start + e.deleteCount)

/-- Modelled from the spec: `DeltaPatcher.apply` — splice edits processed in
descending order of `start` (the edit list is ascending, so a right fold
applies the rightmost edit first). -/
def applyDeltaSpec (prev : List Nat) (edits : List SemanticTokensEdit) : List Nat :=
  edits.foldr (fun e acc => spliceOneSpec acc e) prev

/-- The `start` position of the next edit, or the end of the source buffer if
no edit remains (the right endpoint of the region an edit may touch). -/
def nextStart (srcLen : Nat) : List SemanticTokensEdit → Nat
  | [] => srcLen
  | e :: _ => e.start

/-- The contract on the edit list (spec §4.2): edits ascending by `start`,
non-overlapping (`start + deleteCount` of each is at most the next `start`),
and the last edit within the source buffer. -/
def editsOk (srcLen : Nat) : List SemanticTokensEdit → Bool
  | [] => true
  | e :: es => decide (e.start + e.deleteCount ≤ nextStart srcLen es) && editsOk srcLen es

/-- The spliced output from an edit suffix onwards: each edit's insertion,
then the untouched gap up to the next edit's `start`. -/
def splicedTail (src : List Nat) : List SemanticTokensEdit → List Nat
  | [] => []
  | e :: es =>
      editData e ++
        (src.drop (e.start + e.deleteCount)).take (nextStart src.length es - (e.start + e.deleteCount)) ++
        splicedTail src es

/-- Total number of integers deleted by an edit list. -/
def sumDel : List SemanticTokensEdit → Nat
  | [] => 0
  | e :: es => e.deleteCount + sumDel es

/-- Total number of integers inserted by an edit list. -/
def sumIns : List SemanticTokensEdit → Nat
  | [] => 0
  | e :: es => (editData e).length + sumIns es

/-! Helper lemmas about the typed-array primitives. -/

theorem u32Set_length (a : List Nat) (i : Int) (v : Nat) : (u32Set a i v).length = a.length := by
  unfold u32Set
  split <;> simp

theorem u32Set_coe (a : List Nat) (i : Nat) (v : Nat) : u32Set a (i : Int) v = a.set i v := by
  simp [u32Set]

theorem u32Get_coe (a : List Nat) (i : Nat) : u32Get a (i : Int) = a.getD i 0 := by
  simp [u32Get]

theorem copyArr_length (n : Nat) : ∀ (src : List Nat) (sOff : Int) (dest : List Nat) (dOff : Int),
    (copyArr src sOff dest dOff n).length = dest.length := by
  induction n with
  | zero => intro src sOff dest dOff; rfl
  | succ n ih =>
      intro src sOff dest dOff
      rw [copyArr, ih, u32Set_length]

theorem copyArr_eq (n : Nat) : ∀ (src dest : List Nat) (sOff dOff : Nat),
    sOff + n ≤ src.length → dOff + n ≤ dest.length →
    copyArr src (sOff : Int) dest (dOff : Int) n =
      dest.take dOff ++ (src.drop sOff).take n ++ dest.drop (dOff + n) := by
  induction n with
  | zero =>
      intro src dest sOff dOff h1 h2
      rw [copyArr]
      simp
  | succ n ih =>
      intro src dest sOff dOff h1 h2
      have hso : sOff < src.length := by omega
      have hdo : dOff < dest.length := by omega
      rw [copyArr, u32Get_coe]
      have hc1 : (sOff : Int) + 1 = ((sOff + 1 : Nat) : Int) := by push_cast; ring
      have hc2 : (dOff : Int) + 1 = ((dOff + 1 : Nat) : Int) := by push_cast; ring
      rw [hc1, hc2, u32Set_coe, ih]
      · have hset : dest.set dOff (src.getD sOff 0) =
            dest.take dOff ++ src.getD sOff 0 :: dest.drop (dOff + 1) := by
          rw [List.set_eq_take_append_cons_drop, if_pos hdo]
        rw [hset]
        rw [List.take_append_eq_append_take, List.drop_append_eq_append_drop]
        have hlt : (dest.take dOff).length = dOff := by
          rw [List.length_take]; omega
        rw [hlt]
        have h5 : dOff + 1 - dOff = 1 := by omega
        have h6 : dOff + 1 + n - dOff = 1 + n := by omega
        rw [h5, h6]
        have h7 : List.take (dOff + 1) (dest.take dOff) = dest.take dOff := by
          rw [List.take_take]; congr 1; omega
        have h8 : List.drop (dOff + 1 + n) (dest.take dOff) = [] := by
          apply List.drop_eq_nil_of_le; omega
        rw [h7, h8]
        have h9 : (src.drop sOff).take (n + 1) = src.getD sOff 0 :: (src.drop (sOff + 1)).take n := by
          rw [List.drop_eq_getElem_cons hso, List.take_succ_cons]
          congr 1
          rw [List.getD_eq_getElem?_getD, List.getElem?_eq_getElem hso]
          rfl
        rw [h9]
        have h10 : List.take 1 (src.getD sOff 0 :: List.drop (dOff + 1) dest) = [src.getD sOff 0] := rfl
        have h11 : dOff + 1 + n = dOff + (n + 1) := by omega
        simp [h10, h11]
        rw [show 1 + n = n + 1 by omega, List.drop_succ_cons, List.drop_drop]
        congr 1
      · omega
      · rw [List.length_set]; omega

/-- C6: patching with the empty edit list returns the previous buffer
unchanged. -/
theorem applyDeltaData_nil (prev : List Nat) : applyDeltaData prev [] = prev := by
  unfold applyDeltaData
  simp only [sumDelta, List.foldl_nil, List.foldr_nil]
  have hlen : ((prev.length : Int) + 0).toNat = prev.length := by omega
  rw [hlen]
  by_cases h : 0 < prev.length
  · have hpos : (0 : Int) < (prev.length : Int) := by exact_mod_cast h
    rw [if_pos hpos]
    have ht : ((prev.length : Int)).toNat = prev.length := Int.toNat_natCast _
    rw [ht]
    have := copyArr_eq prev.length prev (List.replicate prev.length 0) 0 0
      (by omega) (by simp)
    simp only [Nat.cast_zero] at this
    rw [this]
    simp
  · have : prev = [] := by
      cases prev with
      | nil => rfl
      | cons a l => simp at h
    subst this
    simp

/-! Arithmetic lemmas about edit lists. -/

theorem nextStart_nil (L : Nat) : nextStart L [] = L := rfl

theorem nextStart_cons (L : Nat) (e : SemanticTokensEdit) (es : List SemanticTokensEdit) :
    nextStart L (e :: es) = e.start := rfl

theorem sumDel_nil : sumDel [] = 0 := rfl

theorem sumDel_cons (e : SemanticTokensEdit) (es : List SemanticTokensEdit) :
    sumDel (e :: es) = e.deleteCount + sumDel es := rfl

theorem sumIns_nil : sumIns [] = 0 := rfl

theorem sumIns_cons (e : SemanticTokensEdit) (es : List SemanticTokensEdit) :
    sumIns (e :: es) = (editData e).length + sumIns es := rfl

theorem sumDelta_shift (es : List SemanticTokensEdit) : ∀ (acc : Int),
    es.foldl (fun acc e => acc + ((editData e).length : Int) - (e.deleteCount : Int)) acc
      = acc + sumDelta es := by
  induction es with
  | nil => intro acc; simp [sumDelta]
  | cons e es ih =>
      intro acc
      rw [sumDelta, List.foldl_cons, List.foldl_cons, ih, ih]
      ring

theorem sumDelta_cons (e : SemanticTokensEdit) (es : List SemanticTokensEdit) :
    sumDelta (e :: es) = ((editData e).length : Int) - (e.deleteCount : Int) + sumDelta es := by
  rw [sumDelta, List.foldl_cons, sumDelta_shift]
  ring

theorem sumDelta_eq (es : List SemanticTokensEdit) :
    sumDelta es = (sumIns es : Int) - (sumDel es : Int) := by
  induction es with
  | nil => simp [sumDelta, sumIns, sumDel]
  | cons e es ih =>
      rw [sumDelta_cons, ih, sumIns, sumDel]
      push_cast
      ring

theorem sumDelta_append (a b : List SemanticTokensEdit) :
    sumDelta (a ++ b) = sumDelta a + sumDelta b := by
  induction a with
  | nil => simp [sumDelta]
  | cons e a ih =>
      rw [List.cons_append, sumDelta_cons, sumDelta_cons, ih]
      ring

theorem editsOk_cons {L : Nat} {e : SemanticTokensEdit} {es : List SemanticTokensEdit} :
    editsOk L (e :: es) = true ↔
      e.start + e.deleteCount ≤ nextStart L es ∧ editsOk L es = true := by
  rw [editsOk]
  simp

theorem editsOk_suffix {L : Nat} : ∀ (pre es : List SemanticTokensEdit),
    editsOk L (pre ++ es) = true →
    editsOk L es = true ∧ nextStart L (pre ++ es) + sumDel pre ≤ nextStart L es := by
  intro pre
  induction pre with
  | nil =>
      intro es h
      exact ⟨h, by simp [sumDel]⟩
  | cons p pre ih =>
      intro es h
      rw [List.cons_append, editsOk_cons] at h
      obtain ⟨hp, hrest⟩ := h
      obtain ⟨h1, h2⟩ := ih es hrest
      refine ⟨h1, ?_⟩
      rw [List.cons_append, nextStart_cons, sumDel_cons]
      omega

theorem nextStart_le {L : Nat} : ∀ (es : List SemanticTokensEdit),
    editsOk L es = true → nextStart L es + sumDel es ≤ L := by
  intro es
  induction es with
  | nil => intro h; simp [nextStart, sumDel]
  | cons e es ih =>
      intro h
      rw [editsOk_cons] at h
      obtain ⟨h1, h2⟩ := h
      have := ih h2
      rw [nextStart_cons, sumDel_cons]
      omega

theorem splicedTail_length (src : List Nat) : ∀ (es : List SemanticTokensEdit),
    editsOk src.length es = true →
    (splicedTail src es).length + sumDel es + nextStart src.length es
      = sumIns es + src.length := by
  intro es
  induction es with
  | nil => intro h; simp [splicedTail, sumDel, sumIns, nextStart]
  | cons e es ih =>
      intro h
      rw [editsOk_cons] at h
      obtain ⟨h1, h2⟩ := h
      have hns := nextStart_le es h2
      have htail := ih h2
      rw [splicedTail, sumDel_cons, sumIns_cons, nextStart_cons]
      simp only [List.length_append, List.length_take, List.length_drop]
      rw [editData] at *
      omega

theorem sumDelta_nil : sumDelta [] = 0 := rfl


/-- The gap-copying statement writes `g` integers (the untouched region
between the edit's end and the previously processed position `nS`) ending at
destination position `D`; both the taken and the untaken branch of the
source's `if (copyCount)` satisfy this single equation. -/
theorem applyDeltaStepGap_spec (src : List Nat) (e : SemanticTokensEdit) (dest : List Nat)
    (nS D g : Nat)
    (hg : e.start + e.deleteCount + g = nS)
    (hnsL : nS ≤ src.length)
    (hgD : g ≤ D)
    (hD : D ≤ dest.length) :
    applyDeltaStepGap src e ⟨dest, (nS : Int), (D : Int)⟩ =
      ⟨dest.take (D - g) ++ (src.drop (e.start + e.deleteCount)).take g ++ dest.drop D,
       (nS : Int), ((D - g : Nat) : Int)⟩ := by
  rw [applyDeltaStepGap]
  simp only
  have hcc : (nS : Int) - ((e.start : Int) + (e.deleteCount : Int)) = (g : Int) := by omega
  rw [hcc]
  by_cases h0 : (g : Int) ≠ 0
  · rw [if_pos h0]
    have e1 : (nS : Int) - (g : Int) = ((e.start + e.deleteCount : Nat) : Int) := by omega
    have e2 : (D : Int) - (g : Int) = ((D - g : Nat) : Int) := by omega
    have e3 : ((g : Int)).toNat = g := by omega
    rw [e1, e2, e3, copyArr_eq g src dest (e.start + e.deleteCount) (D - g) (by omega) (by omega)]
    have e4 : D - g + g = D := by omega
    rw [e4]
  · rw [if_neg h0]
    have hg0 : g = 0 := by omega
    subst hg0
    simp only [Nat.sub_zero, List.take_zero, List.append_nil, List.nil_append]
    rw [List.take_append_drop]

/-- The insertion statement writes the edit's data ending at destination
position `D`; both branches of the source's `if (edit.data)` satisfy this
single equation. -/
theorem applyDeltaStepIns_spec (e : SemanticTokensEdit) (dest : List Nat) (s : Int) (D : Nat)
    (hins : (editData e).length ≤ D)
    (hD : D ≤ dest.length) :
    applyDeltaStepIns e ⟨dest, s, (D : Int)⟩ =
      ⟨dest.take (D - (editData e).length) ++ editData e ++ dest.drop D,
       s, ((D - (editData e).length : Nat) : Int)⟩ := by
  cases hdata : e.data with
  | none =>
      have he : editData e = [] := by rw [editData, hdata]; rfl
      simp only [applyDeltaStepIns, hdata, he]
      simp [List.take_append_drop]
  | some d =>
      have he : editData e = d := by rw [editData, hdata]; rfl
      rw [he] at hins
      simp only [applyDeltaStepIns, hdata, he]
      have e1 : (D : Int) - (d.length : Int) = ((D - d.length : Nat) : Int) := by omega
      rw [e1]
      have hcopy := copyArr_eq d.length d dest 0 (D - d.length) (by omega) (by omega)
      simp only [Nat.cast_zero] at hcopy
      rw [hcopy]
      have e2 : D - d.length + d.length = D := by omega
      rw [e2, List.drop_zero, List.take_length]

/-- Effect of one full backward-loop iteration of `applyDelta` under the edit
contract: insertion then gap are written immediately before the previously
written suffix, and the cursors move to the edit's `start`. -/
theorem applyDeltaStep_spec (src : List Nat) (e : SemanticTokensEdit) (dest : List Nat)
    (nS D g : Nat)
    (hg : e.start + e.deleteCount + g = nS)
    (hnsL : nS ≤ src.length)
    (hD : D ≤ dest.length)
    (hIns : (editData e).length + g ≤ D) :
    applyDeltaStep src e ⟨dest, (nS : Int), (D : Int)⟩ =
      ⟨dest.take (D - g - (editData e).length) ++ editData e ++
         (src.drop (e.start + e.deleteCount)).take g ++ dest.drop D,
       (e.start : Int), ((D - g - (editData e).length : Nat) : Int)⟩ := by
  rw [applyDeltaStep]
  rw [applyDeltaStepGap_spec src e dest nS D g hg hnsL (by omega) hD]
  have hlen1 : (dest.take (D - g)).length = D - g := by
    rw [List.length_take]; omega
  have hgap : ((src.drop (e.start + e.deleteCount)).take g).length = g := by
    rw [List.length_take, List.length_drop]; omega
  have hlen2 : (dest.take (D - g) ++ (src.drop (e.start + e.deleteCount)).take g ++ dest.drop D).length
      = dest.length - g + g := by
    simp only [List.length_append, List.length_drop, hlen1, hgap]
    omega
  rw [applyDeltaStepIns_spec e _ _ (D - g) (by omega) (by omega)]
  have htake : List.take (D - g - (editData e).length)
      (dest.take (D - g) ++ (src.drop (e.start + e.deleteCount)).take g ++ dest.drop D)
      = dest.take (D - g - (editData e).length) := by
    rw [List.append_assoc]
    rw [List.take_append_of_le_length
      (show D - g - (editData e).length ≤ (dest.take (D - g)).length by omega)]
    rw [List.take_take]
    congr 1
    omega
  have hdrop : List.drop (D - g)
      (dest.take (D - g) ++ (src.drop (e.start + e.deleteCount)).take g ++ dest.drop D)
      = (src.drop (e.start + e.deleteCount)).take g ++ dest.drop D := by
    rw [List.append_assoc]
    exact List.drop_left' hlen1
  simp only [DeltaState.mk.injEq]
  rw [htake, hdrop]
  simp [List.append_assoc]

/-- Invariant of `applyDelta`'s backward edit loop: after processing the edit
suffix `es` (with `pre` the edits still to process, `dl` the allocated output
length), the source cursor sits at the next unprocessed position, the
destination cursor at the start of the already-written suffix, and that
suffix is exactly the spliced tail for `es`. -/
theorem applyDelta_loop (src : List Nat) : ∀ (es pre : List SemanticTokensEdit) (dl : Nat),
    editsOk src.length (pre ++ es) = true →
    (dl : Int) = (src.length : Int) + sumDelta (pre ++ es) →
    ((es.foldr (applyDeltaStep src) ⟨List.replicate dl 0, (src.length : Int), (dl : Int)⟩).dest.length = dl ∧
     (es.foldr (applyDeltaStep src) ⟨List.replicate dl 0, (src.length : Int), (dl : Int)⟩).srcLastStart
       = (nextStart src.length es : Int) ∧
     (es.foldr (applyDeltaStep src) ⟨List.replicate dl 0, (src.length : Int), (dl : Int)⟩).destLastStart
       = (nextStart src.length es : Int) + sumDelta pre ∧
     (es.foldr (applyDeltaStep src) ⟨List.replicate dl 0, (src.length : Int), (dl : Int)⟩).dest.drop
         ((nextStart src.length es : Int) + sumDelta pre).toNat
       = splicedTail src es) := by
  intro es
  induction es with
  | nil =>
      intro pre dl h hdl
      rw [List.append_nil] at h hdl
      have hsd : sumDelta pre = (sumIns pre : Int) - sumDel pre := sumDelta_eq pre
      have hb := nextStart_le pre h
      refine ⟨by simp, by simp [nextStart_nil], ?_, ?_⟩
      · simp only [List.foldr_nil, nextStart_nil]
        omega
      · simp only [List.foldr_nil, nextStart_nil]
        have hidx : ((src.length : Int) + sumDelta pre).toNat = dl := by omega
        rw [hidx]
        simp [splicedTail]
  | cons e es' ih =>
      intro pre dl h hdl
      have hassoc : pre ++ e :: es' = (pre ++ [e]) ++ es' := by simp
      have h' : editsOk src.length ((pre ++ [e]) ++ es') = true := by rw [← hassoc]; exact h
      have hdl' : (dl : Int) = (src.length : Int) + sumDelta ((pre ++ [e]) ++ es') := by
        rw [← hassoc]; exact hdl
      obtain ⟨A1, A2, A3, A4⟩ := ih (pre ++ [e]) dl h' hdl'
      -- contract facts
      obtain ⟨hok, hpresum⟩ := editsOk_suffix pre (e :: es') h
      rw [editsOk_cons] at hok
      obtain ⟨h1, h2⟩ := hok
      have hF1 : sumDel pre ≤ e.start := by
        rw [nextStart_cons] at hpresum
        omega
      have hF2 := nextStart_le es' h2
      have hF3 := splicedTail_length src es' h2
      have hsd_pre : sumDelta pre = (sumIns pre : Int) - sumDel pre := sumDelta_eq pre
      have hsd_pre_e : sumDelta (pre ++ [e])
          = (sumIns pre : Int) - sumDel pre + ((editData e).length : Int) - e.deleteCount := by
        rw [sumDelta_append, sumDelta_eq pre, sumDelta_cons, sumDelta_nil]
        ring
      have hsd_all : sumDelta (pre ++ e :: es')
          = (sumIns pre : Int) - sumDel pre + ((editData e).length : Int) - e.deleteCount
            + (sumIns es' : Int) - sumDel es' := by
        rw [hassoc, sumDelta_append, hsd_pre_e, sumDelta_eq es']
        ring
      rw [hsd_all] at hdl
      -- named quantities
      set nS : Nat := nextStart src.length es' with hnS
      set Dn : Nat := ((nS : Int) + sumDelta (pre ++ [e])).toNat with hDn
      have hD_int : (Dn : Int) = (nS : Int) + sumDelta (pre ++ [e]) := by
        rw [hDn]
        rw [Int.toNat_of_nonneg]
        rw [hsd_pre_e]
        omega
      set g : Nat := nS - (e.start + e.deleteCount) with hgdef
      have hg : e.start + e.deleteCount + g = nS := by omega
      -- structure eta for the inner fold state
      have h3a : (es'.foldr (applyDeltaStep src) ⟨List.replicate dl 0, (src.length : Int), (dl : Int)⟩).destLastStart
          = (Dn : Int) := by
        rw [A3, hD_int]
      have heta : es'.foldr (applyDeltaStep src) ⟨List.replicate dl 0, (src.length : Int), (dl : Int)⟩
          = ⟨(es'.foldr (applyDeltaStep src) ⟨List.replicate dl 0, (src.length : Int), (dl : Int)⟩).dest,
             (nS : Int), (Dn : Int)⟩ := by
        rw [← A2, ← h3a]
      rw [List.foldr_cons, heta]
      have hD_int' : (Dn : Int) = (nS : Int) + ((sumIns pre : Int) - (sumDel pre : Int)
          + ((editData e).length : Int) - (e.deleteCount : Int)) := by
        rw [hD_int, hsd_pre_e]
      have hnSL : nS ≤ src.length := by omega
      have hDle : Dn ≤ dl := by omega
      have hInsOk : (editData e).length + g ≤ Dn := by omega
      have hstep := applyDeltaStep_spec src e
        (es'.foldr (applyDeltaStep src) ⟨List.replicate dl 0, (src.length : Int), (dl : Int)⟩).dest
        nS Dn g hg hnSL (by rw [A1]; exact hDle) hInsOk
      rw [hstep]
      have hA4' : (es'.foldr (applyDeltaStep src) ⟨List.replicate dl 0, (src.length : Int), (dl : Int)⟩).dest.drop Dn
          = splicedTail src es' := by
        have hDn2 : ((nS : Int) + sumDelta (pre ++ [e])).toNat = Dn := by
          rw [← hD_int]
          omega
        rw [← hDn2]
        exact A4
      have htake_len : ((es'.foldr (applyDeltaStep src) ⟨List.replicate dl 0, (src.length : Int), (dl : Int)⟩).dest.take (Dn - g - (editData e).length)).length
          = Dn - g - (editData e).length := by
        rw [List.length_take, A1]
        omega
      have hgap_len : ((src.drop (e.start + e.deleteCount)).take g).length = g := by
        rw [List.length_take, List.length_drop]
        omega
      refine ⟨?_, ?_, ?_, ?_⟩
      · dsimp only
        simp only [List.length_append, htake_len, hgap_len, List.length_drop, A1]
        omega
      · dsimp only
        rw [nextStart_cons]
      · dsimp only
        rw [nextStart_cons, hsd_pre]
        omega
      · dsimp only
        rw [nextStart_cons]
        have hidx : ((e.start : Int) + sumDelta pre).toNat = Dn - g - (editData e).length := by
          rw [hsd_pre]
          omega
        rw [hidx]
        rw [List.append_assoc, List.append_assoc]
        rw [List.drop_left' htake_len]
        rw [splicedTail, hA4']
        rw [← hnS, ← hgdef]
        simp [List.append_assoc]

/-- The specification-level splice (edits applied in descending order of
`start`) assembles the untouched prefix followed by the spliced tail. -/
theorem applyDeltaSpec_eq (src : List Nat) : ∀ (es : List SemanticTokensEdit),
    editsOk src.length es = true →
    applyDeltaSpec src es = src.take (nextStart src.length es) ++ splicedTail src es := by
  intro es
  induction es with
  | nil =>
      intro h
      simp [applyDeltaSpec, splicedTail, nextStart_nil]
  | cons e es ih =>
      intro h
      rw [editsOk_cons] at h
      obtain ⟨h1, h2⟩ := h
      have hns := nextStart_le es h2
      have hIH := ih h2
      rw [applyDeltaSpec] at hIH
      rw [applyDeltaSpec]
      simp only [List.foldr_cons]
      rw [hIH, spliceOneSpec]
      have hlenT : (src.take (nextStart src.length es)).length = nextStart src.length es := by
        rw [List.length_take]
        omega
      have htake : (src.take (nextStart src.length es) ++ splicedTail src es).take e.start
          = src.take e.start := by
        rw [List.take_append_of_le_length (by omega : e.start ≤ (src.take (nextStart src.length es)).length)]
        rw [List.take_take]
        congr 1
        omega
      have hdrop : (src.take (nextStart src.length es) ++ splicedTail src es).drop
          (e.start + e.deleteCount)
          = (src.drop (e.start + e.deleteCount)).take
              (nextStart src.length es - (e.start + e.deleteCount)) ++ splicedTail src es := by
        rw [List.drop_append_eq_append_drop, hlenT]
        have h0 : e.start + e.deleteCount - nextStart src.length es = 0 := by omega
        rw [h0, List.drop_zero, List.drop_take]
      rw [htake, hdrop, nextStart_cons, splicedTail]
      simp [List.append_assoc]

/-- Under the edit contract, the source's `applyDelta` equals the
specification splice. -/
theorem applyDeltaData_eq (prev : List Nat) (edits : List SemanticTokensEdit)
    (h : editsOk prev.length edits = true) :
    applyDeltaData prev edits = applyDeltaSpec prev edits := by
  rw [applyDeltaSpec_eq prev edits h]
  have hb1 := nextStart_le edits h
  have htail := splicedTail_length prev edits h
  have hsd := sumDelta_eq edits
  have hdl : ((((prev.length : Int) + sumDelta edits).toNat : Nat) : Int)
      = (prev.length : Int) + sumDelta edits := by
    rw [hsd]
    omega
  obtain ⟨A1, A2, A3, A4⟩ := applyDelta_loop prev edits []
    (((prev.length : Int) + sumDelta edits).toNat) h hdl
  have hidx : ((nextStart prev.length edits : Int) + sumDelta []).toNat
      = nextStart prev.length edits := by
    rw [sumDelta_nil]
    omega
  rw [hidx] at A4
  simp only [applyDeltaData]
  rw [A2]
  have hdl_nat : ((prev.length : Int) + sumDelta edits).toNat
      = nextStart prev.length edits + (splicedTail prev edits).length := by
    rw [hsd] at hdl ⊢
    omega
  by_cases hpos : 0 < nextStart prev.length edits
  · rw [if_pos (by exact_mod_cast hpos)]
    have ht : ((nextStart prev.length edits : Int)).toNat = nextStart prev.length edits := by
      omega
    rw [ht]
    have hcopy := copyArr_eq (nextStart prev.length edits) prev
      (List.foldr (applyDeltaStep prev)
        ⟨List.replicate (((prev.length : Int) + sumDelta edits).toNat) 0,
         (prev.length : Int), ((((prev.length : Int) + sumDelta edits).toNat : Nat) : Int)⟩ edits).dest
      0 0 (by omega) (by rw [A1]; omega)
    simp only [Nat.cast_zero] at hcopy
    rw [hcopy]
    simp only [List.take_zero, List.drop_zero, List.nil_append, Nat.zero_add]
    rw [A4]
  · rw [if_neg (by exact_mod_cast hpos)]
    have h0 : nextStart prev.length edits = 0 := by omega
    rw [h0] at A4
    rw [List.drop_zero] at A4
    rw [A4, h0]
    simp

/-- C1: under the delta contract (edits non-overlapping, ascending by `start`,
within the previous buffer, and processed in descending order of `start`),
`applyDelta` removes `deleteCount` integers at each edit's `start` and splices
`insertedData` in their place (the specification splice), the output length is
`previousBuffer.length + Σ (insertedData.length − deleteCount)`, and on
`previousBuffer = [0,0,3,1,0, 2,0,4,2,0]` with the single edit
`{start: 5, deleteCount: 5, insertedData: [1,0,4,3,0]}` the result is
`[0,0,3,1,0, 1,0,4,3,0]`. -/
theorem applyDelta_splice_correct :
    (∀ (prev : List Nat) (edits : List SemanticTokensEdit),
        editsOk prev.length edits = true →
        applyDeltaData prev edits = applyDeltaSpec prev edits ∧
        ((applyDeltaData prev edits).length : Int) = (prev.length : Int) + sumDelta edits) ∧
    applyDeltaData [0, 0, 3, 1, 0, 2, 0, 4, 2, 0] [⟨5, 5, some [1, 0, 4, 3, 0]⟩]
      = [0, 0, 3, 1, 0, 1, 0, 4, 3, 0] := by
  constructor
  · intro prev edits h
    refine ⟨applyDeltaData_eq prev edits h, ?_⟩
    rw [applyDeltaData_eq prev edits h, applyDeltaSpec_eq prev edits h]
    have hb1 := nextStart_le edits h
    have htail := splicedTail_length prev edits h
    have hsd := sumDelta_eq edits
    simp only [List.length_append, List.length_take]
    rw [hsd]
    omega
  · decide

/-! Lemmas about extraction (`computeInactiveRanges`). -/

theorem mkRange_no_swap (l c d : Nat) :
    mkRange (some l) (some c) (some l) (some (c + d)) = ⟨some l, some c, some l, some (c + d)⟩ := by
  rw [mkRange, if_pos]
  simp [jsLtNum, jsEqNum, jsLeNum]

/-- On a stream of complete records with a defined sentinel, the source's
extraction loop equals the specification extraction over decoded absolute
records, from any decoding state. -/
theorem computeLoop_flatten (s : Nat) : ∀ (toks : List TokenRecord) (ll lc : Nat),
    computeLoop (some s) ll lc (flattenTokens toks)
      = extractInactiveSpec s (decodeAbsolute ll lc toks) := by
  intro toks
  induction toks with
  | nil =>
      intro ll lc
      simp [flattenTokens, computeLoop, decodeAbsolute, extractInactiveSpec]
  | cons t ts ih =>
      intro ll lc
      by_cases h0 : t.deltaLine = 0 <;> by_cases hty : t.typeCode = s <;>
        simp [flattenTokens, computeLoop, decodeAbsolute, extractInactiveSpec,
          List.filter_cons, h0, hty, ih, mkRange_no_swap, List.map_cons]

/-- Every record decoded from state `(ll, lc)` lies lexicographically at or
after `(ll, lc)`. -/
theorem decodeAbsolute_lowerBound : ∀ (toks : List TokenRecord) (ll lc : Nat)
    (r : AbsRecord), r ∈ decodeAbsolute ll lc toks →
    ll < r.startLine ∨ (ll = r.startLine ∧ lc ≤ r.startColumn) := by
  intro toks
  induction toks with
  | nil => intro ll lc r hr; simp [decodeAbsolute] at hr
  | cons t ts ih =>
      intro ll lc r hr
      rw [decodeAbsolute] at hr
      simp only [List.mem_cons] at hr
      rcases hr with hr | hr
      · subst hr
        dsimp only
        by_cases h0 : t.deltaLine = 0
        · rw [if_pos h0]
          omega
        · rw [if_neg h0]
          omega
      · have := ih (ll + t.deltaLine)
          (if t.deltaLine = 0 then lc + t.deltaStartColumn else t.deltaStartColumn) r hr
        by_cases h0 : t.deltaLine = 0
        · rw [if_pos h0] at this
          rcases this with h | h
          · left; omega
          · right; omega
        · rcases this with h | h
          · left; omega
          · left; omega

/-- The decoded record stream is non-decreasing in `(startLine, startColumn)`. -/
theorem decodeAbsolute_pairwise : ∀ (toks : List TokenRecord) (ll lc : Nat),
    List.Pairwise recPosLe (decodeAbsolute ll lc toks) := by
  intro toks
  induction toks with
  | nil => intro ll lc; simp [decodeAbsolute]
  | cons t ts ih =>
      intro ll lc
      rw [decodeAbsolute]
      refine List.Pairwise.cons ?_ (ih _ _)
      intro r hr
      have := decodeAbsolute_lowerBound ts (ll + t.deltaLine)
        (if t.deltaLine = 0 then lc + t.deltaStartColumn else t.deltaStartColumn) r hr
      rw [recPosLe]
      dsimp only
      by_cases h0 : t.deltaLine = 0
      · rw [if_pos h0]
        rw [if_pos h0] at this
        rcases this with h | h
        · left; omega
        · right; omega
      · rw [if_neg h0]
        rw [if_neg h0] at this
        rcases this with h | h
        · left; omega
        · right; omega

theorem decodeAbsolute_filter_nil (s : Nat) : ∀ (toks : List TokenRecord) (ll lc : Nat),
    (∀ t ∈ toks, t.typeCode ≠ s) →
    (decodeAbsolute ll lc toks).filter (fun r => r.typeCode = s) = [] := by
  intro toks
  induction toks with
  | nil => intro ll lc h; simp [decodeAbsolute]
  | cons t ts ih =>
      intro ll lc h
      rw [decodeAbsolute, List.filter_cons]
      rw [if_neg (by simpa using h t (by simp))]
      exact ih _ _ (fun u hu => h u (by simp [hu]))

/-- C2: for every flat stream of complete 5-integer records and defined
sentinel, extraction equals the specification extraction (one single-line
`Range` per record whose `typeCode` matches, in stream order), the emitted
list is non-decreasing in `(startLine, startColumn)`, and empty input or an
input with no matching record yields the empty list. -/
theorem computeInactiveRanges_extraction :
    ∀ (s : Nat) (toks : List TokenRecord),
      computeInactiveRangesData (some s) (flattenTokens toks)
          = extractInactiveSpec s (decodeAbsolute 0 0 toks) ∧
      List.Pairwise rangeLe (computeInactiveRangesData (some s) (flattenTokens toks)) ∧
      computeInactiveRangesData (some s) [] = [] ∧
      ((∀ t ∈ toks, t.typeCode ≠ s) →
        computeInactiveRangesData (some s) (flattenTokens toks) = []) := by
  intro s toks
  have hmain : computeInactiveRangesData (some s) (flattenTokens toks)
      = extractInactiveSpec s (decodeAbsolute 0 0 toks) := computeLoop_flatten s toks 0 0
  refine ⟨hmain, ?_, rfl, ?_⟩
  · rw [hmain, extractInactiveSpec]
    rw [List.pairwise_map]
    have hpw : List.Pairwise recPosLe
        ((decodeAbsolute 0 0 toks).filter (fun r => r.typeCode = s)) :=
      (decodeAbsolute_pairwise toks 0 0).filter _
    refine hpw.imp ?_
    intro a b hab
    rw [rangeLe]
    rw [recPosLe] at hab
    exact ⟨a.startLine, a.startColumn, b.startLine, b.startColumn,
      rfl, rfl, rfl, rfl, hab⟩
  · intro hnone
    rw [hmain, extractInactiveSpec, decodeAbsolute_filter_nil s toks 0 0 hnone]
    rfl

/-! Lemmas about remapping (`replaceInactiveRanges`). -/

theorem replaceLoop_length (sen : Option Nat) (a : Nat) : ∀ (n i : Nat) (data : List Nat),
    (replaceLoop sen a n i data).length = data.length := by
  intro n
  induction n with
  | zero => intro i data; rfl
  | succ n ih =>
      intro i data
      rw [replaceLoop]
      by_cases h : data[5 * i + 3]? = sen
      · rw [if_pos h, ih, List.length_set]
      · rw [if_neg h, ih]

theorem replaceData_length (sen : Option Nat) (a : Nat) (data : List Nat) :
    (replaceInactiveRangesData sen a data).length = data.length := by
  rw [replaceInactiveRangesData, replaceLoop_length]

/-- With an undefined sentinel the remap loop never writes: an in-bounds
`typeCode` read is a number (never `==`-equal to `undefined`), and the
out-of-bounds store of a truncated record is dropped by the typed array. -/
theorem replaceLoop_none (a : Nat) : ∀ (n i : Nat) (data : List Nat),
    replaceLoop none a n i data = data := by
  intro n
  induction n with
  | zero => intro i data; rfl
  | succ n ih =>
      intro i data
      rw [replaceLoop]
      by_cases h : data[5 * i + 3]? = (none : Option Nat)
      · rw [if_pos h]
        have hlen : data.length ≤ 5 * i + 3 := by
          by_contra hlt
          rw [List.getElem?_eq_getElem (by omega)] at h
          exact Option.noConfusion h
        rw [List.set_eq_of_length_le hlen, ih]
      · rw [if_neg h, ih]

theorem replaceLoop_getElem (s a : Nat) : ∀ (n i : Nat) (data : List Nat) (k : Nat),
    (replaceLoop (some s) a n i data)[k]?
      = if k % 5 = 3 ∧ 5 * i + 3 ≤ k ∧ k < 5 * (i + n) + 3 ∧ data[k]? = some s
        then some a else data[k]? := by
  intro n
  induction n with
  | zero =>
      intro i data k
      rw [replaceLoop, if_neg]
      rintro ⟨-, h2, h3, -⟩
      omega
  | succ n ih =>
      intro i data k
      rw [replaceLoop]
      by_cases hset : data[5 * i + 3]? = (some s : Option Nat)
      · rw [if_pos hset, ih]
        have hin : 5 * i + 3 < data.length := by
          by_contra hge
          rw [List.getElem?_eq_none (by omega)] at hset
          exact Option.noConfusion hset
        by_cases hk : k = 5 * i + 3
        · subst hk
          rw [if_neg (by rintro ⟨-, h2, -, -⟩; omega)]
          rw [List.getElem?_set_self hin]
          rw [if_pos ⟨by omega, by omega, by omega, hset⟩]
        · rw [List.getElem?_set_ne (by omega : 5 * i + 3 ≠ k)]
          by_cases hc : k % 5 = 3 ∧ 5 * (i + 1) + 3 ≤ k ∧ k < 5 * (i + 1 + n) + 3 ∧ data[k]? = some s
          · rw [if_pos hc, if_pos ⟨hc.1, by omega, by omega, hc.2.2.2⟩]
          · rw [if_neg hc, if_neg]
            rintro ⟨h1, h2, h3, h4⟩
            exact hc ⟨h1, by omega, by omega, h4⟩
      · rw [if_neg hset, ih]
        by_cases hc : k % 5 = 3 ∧ 5 * (i + 1) + 3 ≤ k ∧ k < 5 * (i + 1 + n) + 3 ∧ data[k]? = some s
        · rw [if_pos hc, if_pos ⟨hc.1, by omega, by omega, hc.2.2.2⟩]
        · rw [if_neg hc, if_neg]
          rintro ⟨h1, h2, h3, h4⟩
          refine hc ⟨h1, ?_, by omega, h4⟩
          rcases Nat.lt_or_ge k (5 * i + 3 + 1) with hlt | hge
          · exfalso
            have : k = 5 * i + 3 := by omega
            rw [this] at h4
            exact hset h4
          · omega

/-- Pointwise characterization of `replaceInactiveRanges` on the raw data:
position `k` holds the replacement index exactly when it is the `typeCode`
field of a record (`k % 5 = 3`) whose value equals the sentinel; every other
position is unchanged. -/
theorem replaceData_getElem (s a : Nat) (data : List Nat) (k : Nat) :
    (replaceInactiveRangesData (some s) a data)[k]?
      = if k % 5 = 3 ∧ data[k]? = some s then some a else data[k]? := by
  rw [replaceInactiveRangesData, replaceLoop_getElem]
  by_cases hc : k % 5 = 3 ∧ data[k]? = some s
  · have hk : k < data.length := by
      by_contra hge
      rw [List.getElem?_eq_none (by omega)] at hc
      exact Option.noConfusion hc.2
    rw [if_pos ⟨hc.1, by omega, by omega, hc.2⟩, if_pos hc]
  · rw [if_neg hc, if_neg]
    rintro ⟨h1, -, -, h4⟩
    exact hc ⟨h1, h4⟩

/-- Indexing a flattened record stream: position `k` is field `k % 5` of
record `k / 5`. -/
theorem flatten_getElem : ∀ (toks : List TokenRecord) (k : Nat),
    (flattenTokens toks)[k]? = (toks[k / 5]?).map (fun t => tokenField t (k % 5)) := by
  intro toks
  induction toks with
  | nil => intro k; simp [flattenTokens]
  | cons t ts ih =>
      intro k
      rcases k with _ | _ | _ | _ | _ | m
      · simp [flattenTokens, tokenField]
      · simp [flattenTokens, tokenField]
      · simp [flattenTokens, tokenField]
      · simp [flattenTokens, tokenField]
      · simp [flattenTokens, tokenField]
      · rw [flattenTokens]
        simp only [List.getElem?_cons_succ]
        rw [ih m]
        have hdiv : (m + 5) / 5 = m / 5 + 1 := by omega
        have hmod : (m + 5) % 5 = m % 5 := by omega
        rw [hdiv, hmod, List.getElem?_cons_succ]

/-- C3: `remap` returns a value copy (the embedding is pure; the source
allocates a fresh `Uint32Array` before writing); in the copy the `typeCode`
of exactly the sentinel records becomes the replacement index, while
`deltaLine`, `deltaStartColumn`, `length`, `modifierBits`, and the `typeCode`
of non-sentinel records are unchanged; the length is preserved. -/
theorem replaceInactiveRanges_frame :
    (∀ (s a : Nat) (toks : List TokenRecord),
        replaceInactiveRangesData (some s) a (flattenTokens toks)
          = flattenTokens (toks.map (fun t =>
              if t.typeCode = s then
                ⟨t.deltaLine, t.deltaStartColumn, t.length, a, t.modifierBits⟩
              else t))) ∧
    (∀ (sen : Option Nat) (a : Nat) (data : List Nat),
        (replaceInactiveRangesData sen a data).length = data.length) ∧
    (∀ (s a : Nat) (data : List Nat) (k : Nat),
        (replaceInactiveRangesData (some s) a data)[k]?
          = if k % 5 = 3 ∧ data[k]? = some s then some a else data[k]?) := by
  refine ⟨?_, replaceData_length, replaceData_getElem⟩
  intro s a toks
  apply List.ext_getElem?
  intro k
  rw [replaceData_getElem, flatten_getElem, flatten_getElem, List.getElem?_map]
  cases hidx : toks[k / 5]? with
  | none => simp
  | some t =>
      simp only [Option.map_some']
      have h5 : k % 5 = 0 ∨ k % 5 = 1 ∨ k % 5 = 2 ∨ k % 5 = 3 ∨ k % 5 = 4 := by omega
      by_cases hty : t.typeCode = s
      · rcases h5 with h5 | h5 | h5 | h5 | h5 <;> simp [h5, tokenField, hty]
      · rcases h5 with h5 | h5 | h5 | h5 | h5 <;> simp [h5, tokenField, hty]

/-- A stream whose length is a multiple of five is the flattening of its
chunked records. -/
theorem chunk_flatten : ∀ (data : List Nat), data.length % 5 = 0 →
    flattenTokens (chunkTokens data) = data := by
  intro data
  induction data using chunkTokens.induct with
  | case1 d0 d1 l t m rest ih =>
      intro h
      rw [chunkTokens, flattenTokens, ih (by simp at h ⊢; omega)]
  | case2 data hne =>
      intro h
      rcases data with _ | ⟨a, _ | ⟨b, _ | ⟨c, _ | ⟨d, _ | ⟨e, rest⟩⟩⟩⟩⟩
      · rfl
      · simp at h
      · simp at h
      · simp at h
      · simp at h
      · exact absurd rfl (hne a b c d e rest)

/-- With an undefined sentinel no complete record can match (`number ==
undefined` is false), so the loop pushes nothing on a stream of complete
records. -/
theorem computeLoop_flatten_none : ∀ (toks : List TokenRecord) (ll lc : Nat),
    computeLoop none ll lc (flattenTokens toks) = [] := by
  intro toks
  induction toks with
  | nil => intro ll lc; rfl
  | cons t ts ih =>
      intro ll lc
      rw [flattenTokens]
      simp only [computeLoop]
      rw [if_neg (by simp)]
      exact ih _ _

/-- C7 (amended): with an undefined sentinel, extraction yields the empty
list for every well-formed buffer (length a multiple of five), and the remap
leaves every buffer — well-formed or not — unchanged; neither raises an
error.  (The original claim's "every input" fails on a truncated buffer, see
the counterexample: a truncated record's `undefined` `typeCode` compares
`==`-equal to the `undefined` sentinel.) -/
theorem undefinedSentinel_noop :
    (∀ (data : List Nat), data.length % 5 = 0 → computeInactiveRangesData none data = []) ∧
    (∀ (a : Nat) (data : List Nat), replaceInactiveRangesData none a data = data) := by
  constructor
  · intro data h
    rw [computeInactiveRangesData, ← chunk_flatten data h, computeLoop_flatten_none]
  · intro a data
    rw [replaceInactiveRangesData, replaceLoop_none]

/-- Witness for the amended C7 statement at concrete inputs. -/
theorem undefinedSentinel_noop_witness :
    computeInactiveRangesData none [2, 4, 6, 0, 0] = [] ∧
    replaceInactiveRangesData none 9 [0, 0, 3] = [0, 0, 3] :=
  ⟨undefinedSentinel_noop.1 [2, 4, 6, 0, 0] (by decide),
   undefinedSentinel_noop.2 9 [0, 0, 3]⟩

/-- C7 counterexample: with an undefined sentinel, the malformed buffer
`[0, 0, 3]` (a single truncated record with no `typeCode` field) produces a
spurious range — `undefined == undefined` holds in the source's comparison —
so extraction does not return the empty list for every input. -/
theorem undefinedSentinel_spurious_range :
    computeInactiveRangesData none [0, 0, 3] = [⟨some 0, some 0, some 0, some 3⟩] ∧
    computeInactiveRangesData none [0, 0, 3] ≠ [] := by
  constructor
  · decide
  · decide

/-! Lemmas about the legend scan (`InactiveRegionsFeature.initialize`). -/

/-- If the scan loop over an index range produces `some s`, the index was the
accumulator already or lies in the range. -/
theorem legendScan_bound (tokenTypes : List String) : ∀ (n m : Nat) (acc : Option Nat) (s : Nat),
    (List.range' m n).foldl
        (fun acc i => if tokenTypes.get? i = some "comment" then some i else acc) acc
      = some s →
    acc = some s ∨ (m ≤ s ∧ s < m + n) := by
  intro n
  induction n with
  | zero => intro m acc s h; exact Or.inl h
  | succ n ih =>
      intro m acc s h
      rw [List.range'_succ, List.foldl_cons] at h
      rcases ih (m + 1) _ s h with h1 | h1
      · by_cases hc : tokenTypes.get? m = some "comment"
        · rw [if_pos hc] at h1
          right
          have : m = s := Option.some.inj h1
          omega
        · rw [if_neg hc] at h1
          exact Or.inl h1
      · right
        omega

/-- The scan loop leaves the accumulator unchanged over a range without the
designated name. -/
theorem legendScan_none (tokenTypes : List String) : ∀ (n m : Nat) (acc : Option Nat),
    (∀ j, m ≤ j → j < m + n → tokenTypes.get? j ≠ some "comment") →
    (List.range' m n).foldl
        (fun acc i => if tokenTypes.get? i = some "comment" then some i else acc) acc
      = acc := by
  intro n
  induction n with
  | zero => intro m acc h; rfl
  | succ n ih =>
      intro m acc h
      rw [List.range'_succ, List.foldl_cons]
      rw [if_neg (h m (by omega) (by omega))]
      exact ih (m + 1) acc (fun j h1 h2 => h j (by omega) (by omega))

/-- The scan records the last occurrence of the designated name. -/
theorem legendScan_last (tokenTypes : List String) (i : Nat)
    (hi : tokenTypes.get? i = some "comment")
    (hlast : ∀ j, i < j → tokenTypes.get? j ≠ some "comment") :
    (List.range tokenTypes.length).foldl
        (fun acc i => if tokenTypes.get? i = some "comment" then some i else acc) none
      = some i := by
  have hilt : i < tokenTypes.length := by
    by_contra hge
    rw [List.get?_eq_none.mpr (by omega)] at hi
    exact Option.noConfusion hi
  rw [List.range_eq_range']
  have hsplit : List.range' 0 tokenTypes.length
      = List.range' 0 (i + 1) ++ List.range' (i + 1) (tokenTypes.length - (i + 1)) := by
    rw [show tokenTypes.length = tokenTypes.length - (i + 1) + (i + 1) by omega]
    rw [← List.range'_append 0 (i + 1) (tokenTypes.length - (i + 1)) 1]
    simp
  rw [hsplit, List.foldl_append]
  have h1 : (List.range' 0 (i + 1)).foldl
      (fun acc i => if tokenTypes.get? i = some "comment" then some i else acc) none
      = some i := by
    have hsnoc : List.range' 0 (i + 1) = List.range' 0 i ++ [i] := by
      rw [show i + 1 = 1 + i by omega]
      rw [← List.range'_append 0 i 1 1]
      simp [List.range'_one]
    rw [hsnoc, List.foldl_append]
    simp only [List.foldl_cons, List.foldl_nil]
    rw [if_pos hi]
  rw [h1]
  exact legendScan_none tokenTypes _ _ _ (fun j h1 h2 => hlast j (by omega))

/-- C10: the legend scan does not stop at the first match — the recorded
sentinel index is the last occurrence of the designated name `"comment"` —
and whenever the capability is present the appendix index is set to the
legend's length, even if the name is absent. -/
theorem initLegend_lastOccurrence :
    (∀ (tokenTypes : List String) (i : Nat),
        tokenTypes.get? i = some "comment" →
        (∀ j, i < j → tokenTypes.get? j ≠ some "comment") →
        initLegend (none, none) (some tokenTypes) = (some i, some tokenTypes.length)) ∧
    (∀ (st : Option Nat × Option Nat) (tokenTypes : List String),
        (initLegend st (some tokenTypes)).2 = some tokenTypes.length) := by
  constructor
  · intro tokenTypes i hi hlast
    rw [initLegend]
    rw [legendScan_last tokenTypes i hi hlast]
  · intro st tokenTypes
    rfl

/-- Witness for C10: in the legend `["comment", "x", "comment"]` the recorded
sentinel is the last occurrence (index 2), and the appendix is the length 3;
with `"comment"` absent the appendix is still the length. -/
theorem initLegend_lastOccurrence_witness :
    initLegend (none, none) (some ["comment", "x", "comment"]) = (some 2, some 3) ∧
    (initLegend (none, none) (some ["a", "b"])).2 = some 2 :=
  ⟨initLegend_lastOccurrence.1 ["comment", "x", "comment"] 2 (by decide)
      (fun j hj hc => by
        rw [List.get?_eq_none.mpr (by simp; omega)] at hc
        exact Option.noConfusion hc),
   initLegend_lastOccurrence.2 (none, none) ["a", "b"]⟩

/-- C8: when the sentinel is defined after capability negotiation it is an
index into the legend while the appendix equals the legend's length, so the
two are distinct; consequently remapping an already-remapped buffer is a
no-op. -/
theorem sentinel_ne_appendix_and_remap_idempotent :
    (∀ (tokenTypes : List String) (s a : Nat),
        initLegend (none, none) (some tokenTypes) = (some s, some a) → s ≠ a) ∧
    (∀ (s a : Nat) (data : List Nat), s ≠ a →
        replaceInactiveRangesData (some s) a (replaceInactiveRangesData (some s) a data)
          = replaceInactiveRangesData (some s) a data) := by
  constructor
  · intro tokenTypes s a h
    rw [initLegend, Prod.mk.injEq] at h
    obtain ⟨h1, h2⟩ := h
    have ha : a = tokenTypes.length := (Option.some.inj h2).symm
    rw [List.range_eq_range'] at h1
    rcases legendScan_bound tokenTypes tokenTypes.length 0 none s h1 with h3 | h3
    · exact Option.noConfusion h3
    · omega
  · intro s a data hne
    apply List.ext_getElem?
    intro k
    rw [replaceData_getElem, replaceData_getElem]
    by_cases hc : k % 5 = 3 ∧ data[k]? = some s
    · rw [if_pos hc, if_neg]
      rintro ⟨-, hcontra⟩
      exact hne (Option.some.inj hcontra).symm
    · rw [if_neg hc, if_neg hc]

/-- Witness for C8 at a concrete legend and buffer. -/
theorem sentinel_ne_appendix_witness :
    (0 : Nat) ≠ 1 ∧
    replaceInactiveRangesData (some 0) 1 (replaceInactiveRangesData (some 0) 1 [0, 0, 1, 0, 0])
      = replaceInactiveRangesData (some 0) 1 [0, 0, 1, 0, 0] :=
  ⟨sentinel_ne_appendix_and_remap_idempotent.1 ["comment"] 0 1 (by decide),
   sentinel_ne_appendix_and_remap_idempotent.2 0 1 [0, 0, 1, 0, 0] (by decide)⟩

/-- Witness for C2 at a concrete record list (no record matches the
sentinel, so the final conjunct's hypothesis holds). -/
theorem computeInactiveRanges_extraction_witness :
    (computeInactiveRangesData (some 0) (flattenTokens [⟨2, 4, 6, 1, 0⟩])
        = extractInactiveSpec 0 (decodeAbsolute 0 0 [⟨2, 4, 6, 1, 0⟩]) ∧
      List.Pairwise rangeLe (computeInactiveRangesData (some 0) (flattenTokens [⟨2, 4, 6, 1, 0⟩])) ∧
      computeInactiveRangesData (some 0) [] = [] ∧
      computeInactiveRangesData (some 0) (flattenTokens [⟨2, 4, 6, 1, 0⟩]) = []) := by
  obtain ⟨h1, h2, h3, h4⟩ := computeInactiveRanges_extraction 0 [⟨2, 4, 6, 1, 0⟩]
  exact ⟨h1, h2, h3, h4 (by decide)⟩

/-! Store-level theorems (`provideDocumentSemanticTokens` and
`provideDocumentSemanticTokensEdits`). -/

/-- C4: a delta transmission whose declared base `resultId` does not match
the cached state (or arrives with no cached state) is returned unchanged and
the per-document state is untouched — no cache update, no patch, no
extraction, no remap. -/
theorem unresolvedDelta_state_unchanged :
    ∀ (sentinel : Option Nat) (replaceIdx : Nat) (st : DocState) (previousResultId : String)
      (delta : SemanticTokensEdits),
      (∀ prev, st.lastTokens = some prev → prev.resultId ≠ some previousResultId) →
      provideDocumentSemanticTokensEdits sentinel replaceIdx st previousResultId (Sum.inr delta)
        = (st, Sum.inr delta) := by
  intro sentinel replaceIdx st previousResultId delta h
  simp only [provideDocumentSemanticTokensEdits]
  cases hlt : st.lastTokens with
  | none => rfl
  | some prev =>
      dsimp only
      rw [if_neg (h prev hlt)]

/-- Witness for C4: a cached state with base `"a"` and a delta declaring base
`"b"` is returned unchanged. -/
theorem unresolvedDelta_state_unchanged_witness :
    provideDocumentSemanticTokensEdits (some 0) 2
        ⟨some ⟨some "a", [0, 0, 1, 0, 0]⟩, none⟩ "b" (Sum.inr ⟨some "r", []⟩)
      = (⟨some ⟨some "a", [0, 0, 1, 0, 0]⟩, none⟩, Sum.inr ⟨some "r", []⟩) :=
  unresolvedDelta_state_unchanged (some 0) 2 ⟨some ⟨some "a", [0, 0, 1, 0, 0]⟩, none⟩ "b"
    ⟨some "r", []⟩
    (fun prev h => by
      have hp : prev = ⟨some "a", [0, 0, 1, 0, 0]⟩ := (Option.some.inj h).symm
      subst hp
      decide)

/-- C9: the buffer cached for future delta requests is the original
un-remapped input (for a full transmission) or the patched pre-remap buffer
(for a resolved delta); the remapped copy is only forwarded, never cached, so
subsequent patches and extractions operate on a never-remapped stream. -/
theorem cached_buffer_unremapped :
    (∀ (sentinel : Option Nat) (replaceIdx : Nat) (st : DocState) (tokens : SemanticTokens),
        (provideDocumentSemanticTokens sentinel replaceIdx st tokens).1.lastTokens = some tokens ∧
        (provideDocumentSemanticTokens sentinel replaceIdx st tokens).2
          = replaceInactiveRanges sentinel replaceIdx tokens) ∧
    (∀ (sentinel : Option Nat) (replaceIdx : Nat) (st : DocState) (previousResultId : String)
        (delta : SemanticTokensEdits) (prev : SemanticTokens),
        st.lastTokens = some prev → prev.resultId = some previousResultId →
        (provideDocumentSemanticTokensEdits sentinel replaceIdx st previousResultId
            (Sum.inr delta)).1.lastTokens
          = some (applyDelta prev delta)) := by
  constructor
  · intro sentinel replaceIdx st tokens
    exact ⟨rfl, rfl⟩
  · intro sentinel replaceIdx st previousResultId delta prev hlt hres
    simp only [provideDocumentSemanticTokensEdits]
    rw [hlt]
    dsimp only
    rw [if_pos hres]
    rfl

/-- Witness for C9 at a concrete full transmission and a concrete resolved
delta. -/
theorem cached_buffer_unremapped_witness :
    ((provideDocumentSemanticTokens (some 0) 2 ⟨none, none⟩
        ⟨some "r1", [2, 4, 6, 0, 0]⟩).1.lastTokens = some ⟨some "r1", [2, 4, 6, 0, 0]⟩ ∧
      (provideDocumentSemanticTokens (some 0) 2 ⟨none, none⟩ ⟨some "r1", [2, 4, 6, 0, 0]⟩).2
        = replaceInactiveRanges (some 0) 2 ⟨some "r1", [2, 4, 6, 0, 0]⟩) ∧
    (provideDocumentSemanticTokensEdits (some 0) 2
        ⟨some ⟨some "r0", [0, 0, 1, 0, 0]⟩, none⟩ "r0"
        (Sum.inr ⟨some "r1", []⟩)).1.lastTokens
      = some (applyDelta ⟨some "r0", [0, 0, 1, 0, 0]⟩ ⟨some "r1", []⟩) :=
  ⟨cached_buffer_unremapped.1 (some 0) 2 ⟨none, none⟩ ⟨some "r1", [2, 4, 6, 0, 0]⟩,
   cached_buffer_unremapped.2 (some 0) 2 ⟨some ⟨some "r0", [0, 0, 1, 0, 0]⟩, none⟩ "r0"
     ⟨some "r1", []⟩ ⟨some "r0", [0, 0, 1, 0, 0]⟩ rfl rfl⟩

/-- C5 counterexample: the malformed buffer `[0, 0, 3, 7]` (length 4, not a
multiple of 5) is not rejected with any error: the pipeline processes it —
the truncated record is decoded (its missing modifier reads as `undefined`),
its range is extracted and cached, its `typeCode` is remapped, and the result
is cached and forwarded. -/
theorem malformed_processed_not_rejected :
    provideDocumentSemanticTokens (some 7) 9 ⟨none, none⟩ ⟨some "r", [0, 0, 3, 7]⟩
      = (⟨some ⟨some "r", [0, 0, 3, 7]⟩, some [⟨some 0, some 0, some 0, some 3⟩]⟩,
         ⟨some "r", [0, 0, 3, 9]⟩) := by
  decide

/-- A final record truncated to 4 fields is processed by the extraction loop
exactly like a complete record with modifier 0 (the modifier field is never
read for extraction). -/
theorem computeLoop_trunc4 (sen : Option Nat) : ∀ (toks : List TokenRecord) (ll lc d0 d1 l t : Nat),
    computeLoop sen ll lc (flattenTokens toks ++ [d0, d1, l, t])
      = computeLoop sen ll lc (flattenTokens toks ++ [d0, d1, l, t, 0]) := by
  intro toks
  induction toks with
  | nil =>
      intro ll lc d0 d1 l t
      rw [flattenTokens]
      simp only [List.nil_append, computeLoop]
  | cons u ts ih =>
      intro ll lc d0 d1 l t
      rw [flattenTokens]
      simp only [List.cons_append, computeLoop, List.append_eq]
      rw [ih]

/-- C5 (amended): the code has no `MalformedStream` failure path — a buffer
whose length is not a multiple of 5 is processed, not rejected.  A final
4-field truncated record participates fully: extraction treats the buffer
exactly as if the missing modifier were present as 0, and remap rewrites the
truncated record's `typeCode` just as in the padded buffer; the result is
cached and forwarded as for a well-formed buffer (see the counterexample
theorem for the end-to-end concrete run). -/
theorem truncated_record_processed :
    ∀ (sen : Option Nat) (s a : Nat),
    (∀ (toks : List TokenRecord) (d0 d1 l t : Nat),
        computeInactiveRangesData sen (flattenTokens toks ++ [d0, d1, l, t])
          = computeInactiveRangesData sen (flattenTokens toks ++ [d0, d1, l, t, 0])) ∧
    (∀ (data : List Nat), data.length % 5 = 4 →
        replaceInactiveRangesData (some s) a (data ++ [0])
          = replaceInactiveRangesData (some s) a data ++ [0]) := by
  intro sen s a
  constructor
  · intro toks d0 d1 l t
    rw [computeInactiveRangesData, computeInactiveRangesData, computeLoop_trunc4]
  · intro data hlen
    apply List.ext_getElem?
    intro k
    have hrl : (replaceInactiveRangesData (some s) a data).length = data.length :=
      replaceData_length _ _ _
    rw [replaceData_getElem]
    have hB : (replaceInactiveRangesData (some s) a data ++ [0])[k]?
        = if k < (replaceInactiveRangesData (some s) a data).length
          then (replaceInactiveRangesData (some s) a data)[k]?
          else ([0] : List Nat)[k - (replaceInactiveRangesData (some s) a data).length]? :=
      List.getElem?_append
    have hA : (data ++ [0])[k]?
        = if k < data.length then data[k]? else ([0] : List Nat)[k - data.length]? :=
      List.getElem?_append
    rw [hB, hA, hrl]
    by_cases hk : k < data.length
    · rw [if_pos hk, if_pos hk, replaceData_getElem]
    · rw [if_neg hk, if_neg hk]
      rw [if_neg]
      rintro ⟨h3, h4⟩
      rcases Nat.lt_or_ge (k - data.length) 1 with hs | hs
      · have hkd : k = data.length := by omega
        omega
      · rw [List.getElem?_eq_none (by simp; omega)] at h4
        exact Option.noConfusion h4

/-- Witness for the amended C5 statement: the 4-truncated buffer
`[0, 0, 3, 7]` with sentinel 7 extracts and remaps exactly like the padded
buffer `[0, 0, 3, 7, 0]`. -/
theorem truncated_record_processed_witness :
    computeInactiveRangesData (some 7) (flattenTokens [] ++ [0, 0, 3, 7])
        = computeInactiveRangesData (some 7) (flattenTokens [] ++ [0, 0, 3, 7, 0]) ∧
    ([0, 0, 3, 7] : List Nat).length % 5 = 4 ∧
    replaceInactiveRangesData (some 7) 9 ([0, 0, 3, 7] ++ [0])
      = replaceInactiveRangesData (some 7) 9 [0, 0, 3, 7] ++ [0] :=
  ⟨(truncated_record_processed (some 7) 7 9).1 [] 0 0 3 7,
   by decide,
   (truncated_record_processed (some 7) 7 9).2 [0, 0, 3, 7] (by decide)⟩

/-- Witness for C1 at the spec's concrete example: the single edit
`{start: 5, deleteCount: 5, insertedData: [1,0,4,3,0]}` satisfies the
contract on the 10-integer previous buffer, and the theorem's conclusions
hold there. -/
theorem applyDelta_splice_correct_witness :
    editsOk ([0, 0, 3, 1, 0, 2, 0, 4, 2, 0] : List Nat).length [⟨5, 5, some [1, 0, 4, 3, 0]⟩] = true ∧
    (applyDeltaData [0, 0, 3, 1, 0, 2, 0, 4, 2, 0] [⟨5, 5, some [1, 0, 4, 3, 0]⟩]
        = applyDeltaSpec [0, 0, 3, 1, 0, 2, 0, 4, 2, 0] [⟨5, 5, some [1, 0, 4, 3, 0]⟩] ∧
      ((applyDeltaData [0, 0, 3, 1, 0, 2, 0, 4, 2, 0] [⟨5, 5, some [1, 0, 4, 3, 0]⟩]).length : Int)
        = (([0, 0, 3, 1, 0, 2, 0, 4, 2, 0] : List Nat).length : Int)
          + sumDelta [⟨5, 5, some [1, 0, 4, 3, 0]⟩]) :=
  ⟨by decide,
   applyDelta_splice_correct.1 [0, 0, 3, 1, 0, 2, 0, 4, 2, 0] [⟨5, 5, some [1, 0, 4, 3, 0]⟩]
     (by decide)⟩
